import Mathlib

/-!
Verification of the Ising phase-separation engine
(src/basic_phase_separation_modelling/ising_model.ipynb).

The lattice is an N×N numpy array of spins in {+1, -1}; the engine consists of
`initialize_lattice`, `calculate_energy`, `metropolis_step` and the per-temperature
loop of `simulate_phase_separation`.  Randomness (numpy's global RNG) is modelled
as explicit oracle inputs: the shuffle outcome of `np.random.shuffle` is a
permutation of the spin list, and each Metropolis trial reads a site pair
(`np.random.randint(0, N, size=2)`) and a uniform draw (`np.random.rand()`)
from a stream.
-/

namespace Ising

/-- An N×N grid of integer spins, indexed row-major like the numpy array. -/
abbrev Grid (N : ℕ) := Fin N → Fin N → ℤ

/-- Python `(i+1) % N` on a valid row/column index. -/
def wrapSucc {N : ℕ} (i : Fin N) : Fin N :=
  ⟨(i.val + 1) % N, Nat.mod_lt _ i.pos⟩

/-- Python `(i-1) % N` on a valid row/column index (`i-1` is negative for `i = 0`;
Python's `%` wraps it to `N-1`, i.e. `(i + (N-1)) % N`). -/
def wrapPred {N : ℕ} (i : Fin N) : Fin N :=
  ⟨(i.val + (N - 1)) % N, Nat.mod_lt _ i.pos⟩

/-- The sum `lattice[(i+1)%N, j] + lattice[(i-1)%N, j] + lattice[i, (j+1)%N] +
lattice[i, (j-1)%N]` appearing in both `calculate_energy` and `metropolis_step`. -/
def nbSum {N : ℕ} (g : Grid N) (i j : Fin N) : ℤ :=
  g (wrapSucc i) j + g (wrapPred i) j + g i (wrapSucc j) + g i (wrapPred j)

/-- The accumulated double loop of `calculate_energy`:
`energy += -spin * neighbors` over all cells. -/
def energy2 {N : ℕ} (g : Grid N) : ℤ :=
  ∑ i : Fin N, ∑ j : Fin N, -(g i j) * nbSum g i j

/-- `calculate_energy`: the accumulated sum divided by 2.0 (exact division in ℚ). -/
def calculate_energy {N : ℕ} (g : Grid N) : ℚ :=
  (energy2 g : ℚ) / 2

/-- In-place single-cell assignment `lattice[p, q] = v`. -/
def setCell {N : ℕ} (g : Grid N) (p q : Fin N) (v : ℤ) : Grid N :=
  fun i j => if i = p ∧ j = q then v else g i j

/-- `lattice[p, q] *= -1`: the lattice with the one spin at (p, q) negated. -/
def flipAt {N : ℕ} (g : Grid N) (p q : Fin N) : Grid N :=
  setCell g p q (g p q * (-1))

/-- `delta_E = 2 * spin * neighbors` from `metropolis_step`. -/
def deltaE {N : ℕ} (g : Grid N) (i j : Fin N) : ℤ :=
  2 * g i j * nbSum g i j

/-- Number of cells of the grid holding value +1. -/
def posCount {N : ℕ} (g : Grid N) : ℕ :=
  ((Finset.univ : Finset (Fin N × Fin N)).filter (fun p => g p.1 p.2 = 1)).card

/-- Number of cells of the grid holding value -1. -/
def negCount {N : ℕ} (g : Grid N) : ℕ :=
  ((Finset.univ : Finset (Fin N × Fin N)).filter (fun p => g p.1 p.2 = -1)).card

/-- Python's `int()` applied to an exact rational: truncation toward zero. -/
def pyInt (x : ℚ) : ℤ :=
  if 0 ≤ x then ⌊x⌋ else -⌊-x⌋

/-- `num_blue = int(num_spins * ratio)` of `initialize_lattice`, as the natural
number used for list replication (Python `[1] * k` is empty for `k ≤ 0`). -/
def num_blue (N : ℕ) (ratio : ℚ) : ℕ :=
  (pyInt ((N * N : ℚ) * ratio)).toNat

/-- `num_red = num_spins - num_blue`, likewise clamped at 0 for replication. -/
def num_red (N : ℕ) (ratio : ℚ) : ℕ :=
  ((N * N : ℤ) - pyInt ((N * N : ℚ) * ratio)).toNat

/-- `spins = np.array([1] * num_blue + [-1] * num_red)` before shuffling. -/
def spins (N : ℕ) (ratio : ℚ) : List ℤ :=
  List.replicate (num_blue N ratio) 1 ++ List.replicate (num_red N ratio) (-1)

theorem index_lt {N : ℕ} (i j : Fin N) : i.val * N + j.val < N * N := by
  calc i.val * N + j.val < i.val * N + N := by omega
    _ = (i.val + 1) * N := by ring
    _ ≤ N * N := by
        have : i.val + 1 ≤ N := i.isLt
        calc (i.val + 1) * N ≤ N * N := Nat.mul_le_mul_right N this

/-- `spins.reshape((N, N))`: row-major reshape of a flat list; numpy raises a
`ValueError` when the length does not match, modelled as `none`. -/
def np_reshape (N : ℕ) (l : List ℤ) : Option (Grid N) :=
  if h : l.length = N * N then
    some (fun i j => l.get ⟨i.val * N + j.val, by rw [h]; exact index_lt i j⟩)
  else
    none

/-- `initialize_lattice(N, ratio, randomize)`.  The random branch receives the
outcome of `np.random.shuffle(spins)` as the oracle argument `shuffled` (the
shuffle contract: `shuffled` is a permutation of `spins N ratio`); the
deterministic branch is `np.ones((N,N))` with `lattice[:, :N//2] = -1`. -/
def initialize_lattice (N : ℕ) (ratio : ℚ) (randomize : Bool)
    (shuffled : List ℤ) : Option (Grid N) :=
  if randomize then
    np_reshape N shuffled
  else
    some (fun _ j => if (j : ℕ) < N / 2 then -1 else 1)

/-- The random inputs consumed by one Metropolis trial: the site pair drawn by
`i, j = np.random.randint(0, N, size=2)` and the uniform draw `np.random.rand()`
(consumed only when `delta_E ≥ 0`, which the embedding may supply eagerly since
each trial has its own record). -/
structure Trial (N : ℕ) where
  i : Fin N
  j : Fin N
  u : ℝ

/-- One iteration of the loop body of `metropolis_step` (lines 68-74):
`if delta_E < 0 or np.random.rand() < np.exp(-delta_E / temperature):
lattice[i, j] *= -1`. -/
noncomputable def mtrial {N : ℕ} (temperature : ℝ) (g : Grid N) (t : Trial N) :
    Grid N :=
  if (deltaE g t.i t.j : ℝ) < 0 ∨
      t.u < Real.exp (-(deltaE g t.i t.j : ℝ) / temperature) then
    setCell g t.i t.j (g t.i t.j * (-1))
  else
    g

/-- `metropolis_step(lattice, temperature)`: `for _ in range(N**2)` iterations of
the trial body, consuming the trial stream `rand` in order. -/
noncomputable def metropolis_step {N : ℕ} (temperature : ℝ) (g : Grid N)
    (rand : ℕ → Trial N) : Grid N :=
  (List.range (N ^ 2)).foldl (fun acc k => mtrial temperature acc (rand k)) g

/-- Modelled from the spec (section 4.3, steps 2-5), for the refinement claim C1:
one trial computes `delta_E = 2 * spin * (sum of the four neighbor spins)`,
accepts unconditionally when `delta_E < 0`, otherwise accepts exactly when the
uniform draw is strictly below `exp(-delta_E / T)`, and on acceptance negates
the chosen cell's spin. -/
noncomputable def specTrial {N : ℕ} (T : ℝ) (g : Grid N) (t : Trial N) : Grid N :=
  let dE : ℤ := 2 * g t.i t.j *
    (g (wrapSucc t.i) t.j + g (wrapPred t.i) t.j +
      g t.i (wrapSucc t.j) + g t.i (wrapPred t.j))
  if dE < 0 then
    setCell g t.i t.j (-(g t.i t.j))
  else if t.u < Real.exp (-(dE : ℝ) / T) then
    setCell g t.i t.j (-(g t.i t.j))
  else
    g

/-- Modelled from the spec (section 4.3): a sweep is `n` successive single-site
trials (the contract takes `n = N²`), trial `k` reading the `k`-th record of the
random stream. -/
noncomputable def specSweep {N : ℕ} (T : ℝ) (rand : ℕ → Trial N) :
    ℕ → Grid N → Grid N
  | 0, g => g
  | n + 1, g => specTrial T (specSweep T rand n g) (rand n)

/-- The per-temperature loop body of `simulate_phase_separation` (lines 96-102):
starting from `g0`, each step runs one Metropolis sweep (step `k` using the
stream `rands k`), appends `calculate_energy(lattice)` to the energy trajectory
and an independent copy of the lattice (`np.copy`) to the snapshot sequence.
Returns (final lattice, energy trajectory, snapshot sequence). -/
noncomputable def simulate_run {N : ℕ} (temperature : ℝ)
    (rands : ℕ → ℕ → Trial N) (g0 : Grid N) :
    ℕ → Grid N × List ℚ × List (Grid N)
  | 0 => (g0, [], [])
  | k + 1 =>
    let prev := simulate_run temperature rands g0 k
    let g2 := metropolis_step temperature prev.1 (rands k)
    (g2, prev.2.1 ++ [calculate_energy g2], prev.2.2 ++ [g2])

/-- C3: for every N ≥ 1, the energy of the all-(+1) N×N lattice is exactly
-2·N², with toroidal neighbors and each unordered adjacent pair counted once
(four neighbor-products per cell, total divided by two). -/
theorem calculate_energy_allones (N : ℕ) (hN : 1 ≤ N) :
    calculate_energy (fun _ _ => (1 : ℤ) : Grid N) = -2 * (N : ℚ) ^ 2 := by
  have h2 : energy2 (fun _ _ => (1 : ℤ) : Grid N) = -(4 * (N : ℤ) ^ 2) := by
    simp [energy2, nbSum, Finset.sum_const, Finset.card_univ]
    ring
  rw [calculate_energy, h2]
  push_cast
  ring

/-- Witness for `calculate_energy_allones` at N = 2. -/
theorem calculate_energy_allones_witness :
    1 ≤ 2 ∧ calculate_energy (fun _ _ => (1 : ℤ) : Grid 2) = -2 * (2 : ℚ) ^ 2 :=
  ⟨by norm_num, calculate_energy_allones 2 (by norm_num)⟩

/-- C9: deterministic mode ignores the ratio and the shuffle oracle, and returns
the grid whose columns of index < N/2 (integer division) are -1 and whose other
cells are +1; for N = 2 this is the grid [[-1, 1], [-1, 1]]. -/
theorem initialize_lattice_deterministic (N : ℕ) (r r' : ℚ) (s s' : List ℤ)
    (hN : 1 ≤ N) :
    initialize_lattice N r false s = initialize_lattice N r' false s' ∧
    initialize_lattice N r false s =
      some (fun _ j => if (j : ℕ) < N / 2 then -1 else 1 : Grid N) ∧
    (∀ g : Grid 2, initialize_lattice 2 r false s = some g →
      g 0 0 = -1 ∧ g 0 1 = 1 ∧ g 1 0 = -1 ∧ g 1 1 = 1) := by
  refine ⟨rfl, rfl, ?_⟩
  intro g hg
  simp only [initialize_lattice, Bool.false_eq_true, if_false,
    Option.some.injEq] at hg
  rw [← hg]
  norm_num

/-- Witness for `initialize_lattice_deterministic` at N = 2, ratio 1/2 vs 1/3. -/
theorem initialize_lattice_deterministic_witness :
    1 ≤ 2 ∧
    (initialize_lattice 2 (1/2) false [] = initialize_lattice 2 (1/3) false [1] ∧
     initialize_lattice 2 (1/2) false [] =
       some (fun _ j => if (j : ℕ) < 2 / 2 then -1 else 1 : Grid 2) ∧
     (∀ g : Grid 2, initialize_lattice 2 (1/2) false [] = some g →
       g 0 0 = -1 ∧ g 0 1 = 1 ∧ g 1 0 = -1 ∧ g 1 1 = 1)) :=
  ⟨by norm_num, initialize_lattice_deterministic 2 (1/2) (1/3) [] [1] (by norm_num)⟩

/-- C10: the Energy Evaluator is deterministic — it consumes no randomness and
returns equal values on (extensionally) equal lattices.  (Read-only is inherent
in the embedding: `calculate_energy` only reads the grid, mirroring the source,
which performs no assignment.) -/
theorem calculate_energy_deterministic {N : ℕ} (g g' : Grid N)
    (h : ∀ i j, g i j = g' i j) : calculate_energy g = calculate_energy g' := by
  have hg : g = g' := funext fun i => funext fun j => h i j
  rw [hg]

/-- Witness for `calculate_energy_deterministic` on two syntactically distinct
all-(+1) 1×1 grids. -/
theorem calculate_energy_deterministic_witness :
    (∀ i j : Fin 1, (fun _ _ => (1 : ℤ) : Grid 1) i j
        = (fun _ _ => (2 - 1 : ℤ) : Grid 1) i j) ∧
    calculate_energy (fun _ _ => (1 : ℤ) : Grid 1)
        = calculate_energy (fun _ _ => (2 - 1 : ℤ) : Grid 1) :=
  ⟨fun _ _ => by norm_num,
   calculate_energy_deterministic (fun _ _ => (1 : ℤ)) (fun _ _ => (2 - 1 : ℤ))
     (fun _ _ => by norm_num)⟩

/-- C7: in every temperature run, the recorded energy trajectory is exactly the
snapshot sequence re-evaluated through the Energy Evaluator (entry-by-entry),
and both sequences have one entry per step. -/
theorem simulate_run_energy_matches_snapshots {N : ℕ} (T : ℝ)
    (rands : ℕ → ℕ → Trial N) (g0 : Grid N) (steps : ℕ) :
    (simulate_run T rands g0 steps).2.2.map calculate_energy
        = (simulate_run T rands g0 steps).2.1 ∧
    (simulate_run T rands g0 steps).2.1.length = steps ∧
    (simulate_run T rands g0 steps).2.2.length = steps := by
  induction steps with
  | zero => simp [simulate_run]
  | succ k ih =>
    obtain ⟨h1, h2, h3⟩ := ih
    simp [simulate_run, h1, h2, h3]

theorem wrapPred_wrapSucc {N : ℕ} (i : Fin N) : wrapPred (wrapSucc i) = i := by
  apply Fin.ext
  show ((i.val + 1) % N + (N - 1)) % N = i.val
  rw [Nat.mod_add_mod]
  have hN : 0 < N := i.pos
  have h : i.val + 1 + (N - 1) = i.val + N := by omega
  rw [h, Nat.add_mod_right, Nat.mod_eq_of_lt i.isLt]

theorem wrapSucc_wrapPred {N : ℕ} (i : Fin N) : wrapSucc (wrapPred i) = i := by
  apply Fin.ext
  show ((i.val + (N - 1)) % N + 1) % N = i.val
  rw [Nat.mod_add_mod]
  have hN : 0 < N := i.pos
  have h : i.val + (N - 1) + 1 = i.val + N := by omega
  rw [h, Nat.add_mod_right, Nat.mod_eq_of_lt i.isLt]

theorem wrapSucc_ne {N : ℕ} (hN : 2 ≤ N) (i : Fin N) : wrapSucc i ≠ i := by
  intro h
  have hv : (i.val + 1) % N = i.val := congrArg Fin.val h
  have hlt : i.val < N := i.isLt
  rcases Nat.lt_or_ge (i.val + 1) N with h1 | h1
  · rw [Nat.mod_eq_of_lt h1] at hv
    omega
  · have he : i.val + 1 = N := by omega
    rw [he, Nat.mod_self] at hv
    omega

theorem wrapPred_ne {N : ℕ} (hN : 2 ≤ N) (i : Fin N) : wrapPred i ≠ i := by
  intro h
  have h2 := congrArg wrapSucc h
  rw [wrapSucc_wrapPred] at h2
  exact wrapSucc_ne hN i h2.symm

theorem flipAt_self {N : ℕ} (g : Grid N) (p q : Fin N) :
    flipAt g p q p q = g p q * (-1) := by
  simp [flipAt, setCell]

theorem flipAt_other {N : ℕ} (g : Grid N) (p q a b : Fin N)
    (h : ¬(a = p ∧ b = q)) : flipAt g p q a b = g a b := by
  simp only [flipAt, setCell, if_neg h]

theorem sum_rowShift_flip {N : ℕ} (g : Grid N) (p q : Fin N)
    (σ τ : Fin N → Fin N) (hστ : ∀ i, σ (τ i) = i) (hτσ : ∀ i, τ (σ i) = i)
    (hσ : ∀ i, σ i ≠ i) :
    ∑ x : Fin N × Fin N, flipAt g p q x.1 x.2 * flipAt g p q (σ x.1) x.2
      = (∑ x : Fin N × Fin N, g x.1 x.2 * g (σ x.1) x.2)
        - 2 * g p q * (g (σ p) q + g (τ p) q) := by
  have hτp : τ p ≠ p := by
    intro h
    have h2 := hστ p
    rw [h] at h2
    exact hσ p h2
  have key : ∀ x : Fin N × Fin N,
      x ∉ ({(p, q), (τ p, q)} : Finset (Fin N × Fin N)) →
      flipAt g p q x.1 x.2 * flipAt g p q (σ x.1) x.2
        - g x.1 x.2 * g (σ x.1) x.2 = 0 := by
    intro x hx
    simp only [Finset.mem_insert, Finset.mem_singleton] at hx
    push_neg at hx
    obtain ⟨hx1, hx2⟩ := hx
    have h1 : ¬(x.1 = p ∧ x.2 = q) := by
      intro hc
      exact hx1 (Prod.ext hc.1 hc.2)
    have h2 : ¬(σ x.1 = p ∧ x.2 = q) := by
      intro hc
      apply hx2
      refine Prod.ext ?_ hc.2
      have h3 := congrArg τ hc.1
      rw [hτσ] at h3
      exact h3
    rw [flipAt_other g p q _ _ h1, flipAt_other g p q _ _ h2, sub_self]
  have hpair : ((p, q) : Fin N × Fin N) ∉
      ({(τ p, q)} : Finset (Fin N × Fin N)) := by
    simp only [Finset.mem_singleton, Prod.mk.injEq, not_and]
    intro h
    exact absurd h.symm hτp
  have hsub : ∑ x : Fin N × Fin N,
      (flipAt g p q x.1 x.2 * flipAt g p q (σ x.1) x.2
        - g x.1 x.2 * g (σ x.1) x.2)
      = ∑ x ∈ ({(p, q), (τ p, q)} : Finset (Fin N × Fin N)),
        (flipAt g p q x.1 x.2 * flipAt g p q (σ x.1) x.2
          - g x.1 x.2 * g (σ x.1) x.2) := by
    refine (Finset.sum_subset (Finset.subset_univ _) ?_).symm
    intro x _ hx
    exact key x hx
  rw [Finset.sum_insert hpair, Finset.sum_singleton] at hsub
  rw [Finset.sum_sub_distrib] at hsub
  have e1 : flipAt g p q p q * flipAt g p q (σ p) q - g p q * g (σ p) q
      = -2 * g p q * g (σ p) q := by
    rw [flipAt_self, flipAt_other g p q _ _ (fun hc => hσ p hc.1)]
    ring
  have e2 : flipAt g p q (τ p) q * flipAt g p q (σ (τ p)) q
      - g (τ p) q * g (σ (τ p)) q = -2 * g p q * g (τ p) q := by
    rw [hστ p]
    rw [flipAt_other g p q _ _ (fun hc => hτp hc.1), flipAt_self]
    ring
  rw [e1, e2] at hsub
  linarith [hsub]

theorem sum_colShift_flip {N : ℕ} (g : Grid N) (p q : Fin N)
    (σ τ : Fin N → Fin N) (hστ : ∀ i, σ (τ i) = i) (hτσ : ∀ i, τ (σ i) = i)
    (hσ : ∀ i, σ i ≠ i) :
    ∑ x : Fin N × Fin N, flipAt g p q x.1 x.2 * flipAt g p q x.1 (σ x.2)
      = (∑ x : Fin N × Fin N, g x.1 x.2 * g x.1 (σ x.2))
        - 2 * g p q * (g p (σ q) + g p (τ q)) := by
  have hτq : τ q ≠ q := by
    intro h
    have h2 := hστ q
    rw [h] at h2
    exact hσ q h2
  have key : ∀ x : Fin N × Fin N,
      x ∉ ({(p, q), (p, τ q)} : Finset (Fin N × Fin N)) →
      flipAt g p q x.1 x.2 * flipAt g p q x.1 (σ x.2)
        - g x.1 x.2 * g x.1 (σ x.2) = 0 := by
    intro x hx
    simp only [Finset.mem_insert, Finset.mem_singleton] at hx
    push_neg at hx
    obtain ⟨hx1, hx2⟩ := hx
    have h1 : ¬(x.1 = p ∧ x.2 = q) := by
      intro hc
      exact hx1 (Prod.ext hc.1 hc.2)
    have h2 : ¬(x.1 = p ∧ σ x.2 = q) := by
      intro hc
      apply hx2
      refine Prod.ext hc.1 ?_
      have h3 := congrArg τ hc.2
      rw [hτσ] at h3
      exact h3
    rw [flipAt_other g p q _ _ h1, flipAt_other g p q _ _ h2, sub_self]
  have hpair : ((p, q) : Fin N × Fin N) ∉
      ({(p, τ q)} : Finset (Fin N × Fin N)) := by
    simp only [Finset.mem_singleton, Prod.mk.injEq, not_and]
    intro _ h
    exact absurd h.symm hτq
  have hsub : ∑ x : Fin N × Fin N,
      (flipAt g p q x.1 x.2 * flipAt g p q x.1 (σ x.2)
        - g x.1 x.2 * g x.1 (σ x.2))
      = ∑ x ∈ ({(p, q), (p, τ q)} : Finset (Fin N × Fin N)),
        (flipAt g p q x.1 x.2 * flipAt g p q x.1 (σ x.2)
          - g x.1 x.2 * g x.1 (σ x.2)) := by
    refine (Finset.sum_subset (Finset.subset_univ _) ?_).symm
    intro x _ hx
    exact key x hx
  rw [Finset.sum_insert hpair, Finset.sum_singleton] at hsub
  rw [Finset.sum_sub_distrib] at hsub
  have e1 : flipAt g p q p q * flipAt g p q p (σ q) - g p q * g p (σ q)
      = -2 * g p q * g p (σ q) := by
    rw [flipAt_self, flipAt_other g p q _ _ (fun hc => hσ q hc.2)]
    ring
  have e2 : flipAt g p q p (τ q) * flipAt g p q p (σ (τ q))
      - g p (τ q) * g p (σ (τ q)) = -2 * g p q * g p (τ q) := by
    rw [hστ q]
    rw [flipAt_other g p q _ _ (fun hc => hτq hc.2), flipAt_self]
    ring
  rw [e1, e2] at hsub
  linarith [hsub]

theorem energy2_prod {N : ℕ} (g : Grid N) :
    energy2 g = ∑ x : Fin N × Fin N, -(g x.1 x.2) * nbSum g x.1 x.2 := by
  rw [energy2]
  exact (Fintype.sum_prod_type' fun i j => -(g i j) * nbSum g i j).symm

theorem energy2_eq_shifts {N : ℕ} (g : Grid N) :
    energy2 g
      = -((∑ x : Fin N × Fin N, g x.1 x.2 * g (wrapSucc x.1) x.2)
          + (∑ x : Fin N × Fin N, g x.1 x.2 * g (wrapPred x.1) x.2)
          + (∑ x : Fin N × Fin N, g x.1 x.2 * g x.1 (wrapSucc x.2))
          + (∑ x : Fin N × Fin N, g x.1 x.2 * g x.1 (wrapPred x.2))) := by
  rw [energy2_prod]
  rw [← Finset.sum_add_distrib, ← Finset.sum_add_distrib, ← Finset.sum_add_distrib,
    ← Finset.sum_neg_distrib]
  refine Finset.sum_congr rfl ?_
  intro x _
  rw [nbSum]
  ring

theorem energy2_flip {N : ℕ} (hN : 2 ≤ N) (g : Grid N) (p q : Fin N) :
    energy2 (flipAt g p q) - energy2 g = 4 * g p q * nbSum g p q := by
  have hr1 := sum_rowShift_flip g p q wrapSucc wrapPred
    (fun i => wrapSucc_wrapPred i) (fun i => wrapPred_wrapSucc i)
    (fun i => wrapSucc_ne hN i)
  have hr2 := sum_rowShift_flip g p q wrapPred wrapSucc
    (fun i => wrapPred_wrapSucc i) (fun i => wrapSucc_wrapPred i)
    (fun i => wrapPred_ne hN i)
  have hc1 := sum_colShift_flip g p q wrapSucc wrapPred
    (fun i => wrapSucc_wrapPred i) (fun i => wrapPred_wrapSucc i)
    (fun i => wrapSucc_ne hN i)
  have hc2 := sum_colShift_flip g p q wrapPred wrapSucc
    (fun i => wrapPred_wrapSucc i) (fun i => wrapSucc_wrapPred i)
    (fun i => wrapPred_ne hN i)
  rw [energy2_eq_shifts (flipAt g p q), energy2_eq_shifts g, hr1, hr2, hc1, hc2,
    nbSum]
  ring

/-- C2 (amended to N ≥ 2): for every N×N lattice with N ≥ 2 and cells in
{+1, -1}, the analytic `delta_E = 2·spin·(sum of the four toroidal neighbors)`
equals exactly the total energy of the lattice with that one spin negated minus
the total energy of the original lattice, with total energy computed by
`calculate_energy`.  (For N = 1 the identity fails: see `deltaE_mismatch_N1`.) -/
theorem deltaE_matches_energy_difference {N : ℕ} (hN : 2 ≤ N) (g : Grid N)
    (p q : Fin N) (hpm : ∀ i j, g i j = 1 ∨ g i j = -1) :
    calculate_energy (flipAt g p q) - calculate_energy g
      = (deltaE g p q : ℚ) := by
  rw [calculate_energy, calculate_energy, div_sub_div_same, ← Int.cast_sub,
    energy2_flip hN g p q, deltaE]
  push_cast
  ring

/-- Counterexample to C2 as stated: on the 1×1 all-(+1) lattice (whose single
cell is its own toroidal neighbor four times over), flipping the cell leaves the
total energy unchanged, while the analytic formula gives delta_E = 8. -/
theorem deltaE_mismatch_N1 :
    ¬ (calculate_energy (flipAt (fun _ _ => (1 : ℤ) : Grid 1) 0 0)
        - calculate_energy (fun _ _ => (1 : ℤ) : Grid 1)
      = (deltaE (fun _ _ => (1 : ℤ) : Grid 1) 0 0 : ℚ)) := by
  have h1 : calculate_energy (fun _ _ => (1 : ℤ) : Grid 1) = -2 := by
    simp +decide [calculate_energy, energy2, nbSum, Fin.sum_univ_one]
    norm_num
  have h2 : calculate_energy (flipAt (fun _ _ => (1 : ℤ) : Grid 1) 0 0) = -2 := by
    simp +decide [calculate_energy, energy2, nbSum, Fin.sum_univ_one, flipAt,
      setCell]
    norm_num
  have h3 : deltaE (fun _ _ => (1 : ℤ) : Grid 1) 0 0 = 8 := by
    simp +decide [deltaE, nbSum]
  rw [h1, h2, h3]
  norm_num

/-- Witness for `deltaE_matches_energy_difference` on the all-(+1) 2×2 lattice. -/
theorem deltaE_matches_energy_difference_witness :
    2 ≤ 2 ∧
    (∀ i j : Fin 2, (fun _ _ => (1 : ℤ) : Grid 2) i j = 1 ∨
      (fun _ _ => (1 : ℤ) : Grid 2) i j = -1) ∧
    calculate_energy (flipAt (fun _ _ => (1 : ℤ) : Grid 2) 0 0)
      - calculate_energy (fun _ _ => (1 : ℤ) : Grid 2)
      = (deltaE (fun _ _ => (1 : ℤ) : Grid 2) 0 0 : ℚ) :=
  ⟨by norm_num, fun _ _ => Or.inl rfl,
   deltaE_matches_energy_difference (by norm_num) (fun _ _ => 1) 0 0
     (fun _ _ => Or.inl rfl)⟩

theorem card_filter_get_eq_count (l : List ℤ) (a : ℤ) :
    ((Finset.univ : Finset (Fin l.length)).filter (fun k => l.get k = a)).card
      = l.count a := by
  induction l with
  | nil => rfl
  | cons x xs ih =>
    rw [Finset.card_filter]
    show (∑ i : Fin (xs.length + 1), if (x :: xs).get i = a then 1 else 0)
      = List.count a (x :: xs)
    rw [Fin.sum_univ_succ]
    have htail : (∑ i : Fin xs.length, if (x :: xs).get i.succ = a then 1 else 0)
        = xs.count a := by
      rw [← ih, Finset.card_filter]
      refine Finset.sum_congr rfl fun i _ => ?_
      rfl
    rw [htail]
    simp only [List.get_cons_zero, List.count_cons]
    by_cases hxa : x = a
    · simp only [hxa]
      simp
      omega
    · simp [hxa, fun h : a = x => hxa h.symm]

theorem rowcol_val_inj {N : ℕ} (i j i' j' : Fin N)
    (h : i.val * N + j.val = i'.val * N + j'.val) : i = i' ∧ j = j' := by
  have hj : j.val < N := j.isLt
  have hj' : j'.val < N := j'.isLt
  have hii : i.val = i'.val := by
    rcases Nat.lt_trichotomy i.val i'.val with hlt | heq | hgt
    · exfalso
      have hstep : i.val * N + j.val < i'.val * N := by
        calc i.val * N + j.val < i.val * N + N := by omega
          _ = (i.val + 1) * N := by ring
          _ ≤ i'.val * N := Nat.mul_le_mul_right N hlt
      omega
    · exact heq
    · exfalso
      have hstep : i'.val * N + j'.val < i.val * N := by
        calc i'.val * N + j'.val < i'.val * N + N := by omega
          _ = (i'.val + 1) * N := by ring
          _ ≤ i.val * N := Nat.mul_le_mul_right N hgt
      omega
  have hNN : i.val * N = i'.val * N := by rw [hii]
  exact ⟨Fin.ext hii, Fin.ext (by omega)⟩

theorem count_np_reshape {N : ℕ} (hN : 0 < N) {l : List ℤ} {g : Grid N}
    (h : np_reshape N l = some g) (a : ℤ) :
    ((Finset.univ : Finset (Fin N × Fin N)).filter
      (fun p => g p.1 p.2 = a)).card = l.count a := by
  rw [np_reshape] at h
  by_cases hl : l.length = N * N
  · rw [dif_pos hl] at h
    have hg := Option.some.inj h
    rw [← card_filter_get_eq_count l a]
    refine Finset.card_bij
      (fun p _ => (⟨p.1.val * N + p.2.val, by rw [hl]; exact index_lt p.1 p.2⟩ :
        Fin l.length)) ?_ ?_ ?_
    · intro p hp
      rw [Finset.mem_filter] at hp ⊢
      refine ⟨Finset.mem_univ _, ?_⟩
      rw [← hg] at hp
      exact hp.2
    · intro p hp p' hp' hpp
      have hv : p.1.val * N + p.2.val = p'.1.val * N + p'.2.val :=
        congrArg Fin.val hpp
      obtain ⟨h1, h2⟩ := rowcol_val_inj p.1 p.2 p'.1 p'.2 hv
      exact Prod.ext h1 h2
    · intro k hk
      rw [Finset.mem_filter] at hk
      have hkN : k.val < N * N := by rw [← hl]; exact k.isLt
      have hdiv : k.val / N < N := by
        rw [Nat.div_lt_iff_lt_mul hN]
        omega
      have hmod : k.val % N < N := Nat.mod_lt _ hN
      have hidx : k.val / N * N + k.val % N = k.val := by
        rw [Nat.mul_comm]
        exact Nat.div_add_mod k.val N
      have hget : ∀ m : Fin l.length, m = k → l.get m = a :=
        fun m hm => hm ▸ hk.2
      refine ⟨(⟨k.val / N, hdiv⟩, ⟨k.val % N, hmod⟩), ?_, ?_⟩
      · rw [Finset.mem_filter]
        refine ⟨Finset.mem_univ _, ?_⟩
        rw [← hg]
        show l.get _ = a
        exact hget _ (Fin.ext hidx)
      · exact Fin.ext hidx
  · rw [dif_neg hl] at h
    exact absurd h (by simp)

theorem pyInt_nonneg_bounds (N : ℕ) {r : ℚ} (h0 : 0 ≤ r) (h1 : r ≤ 1) :
    0 ≤ pyInt ((N * N : ℚ) * r) ∧ pyInt ((N * N : ℚ) * r) ≤ (N * N : ℤ) := by
  have hx0 : (0 : ℚ) ≤ (N * N : ℚ) * r := by positivity
  rw [pyInt, if_pos hx0]
  constructor
  · exact Int.floor_nonneg.mpr hx0
  · have hle : (N * N : ℚ) * r ≤ (N * N : ℚ) := by
      calc (N * N : ℚ) * r ≤ (N * N : ℚ) * 1 := by
            apply mul_le_mul_of_nonneg_left h1
            positivity
        _ = (N * N : ℚ) := by ring
    calc ⌊(N * N : ℚ) * r⌋ ≤ ⌊(N * N : ℚ)⌋ := Int.floor_le_floor hle
      _ = (N * N : ℤ) := by
          rw [show ((N : ℚ) * (N : ℚ)) = (((N * N : ℤ)) : ℚ) by push_cast; ring]
          exact Int.floor_intCast _

theorem spins_count_pos (N : ℕ) (r : ℚ) :
    (spins N r).count 1 = num_blue N r := by
  rw [spins, List.count_append]
  simp [List.count_replicate]

theorem spins_count_neg (N : ℕ) (r : ℚ) :
    (spins N r).count (-1) = num_red N r := by
  rw [spins, List.count_append]
  simp [List.count_replicate]

/-- C4 (amended): for N ≥ 1 and ratio in [0, 1], random-mode initialization
yields exactly `int(N²·ratio)` (truncation toward zero, i.e. the floor for
nonnegative values — not rounding to nearest) cells equal to +1 and
`N² - int(N²·ratio)` cells equal to -1, for every outcome of the shuffle. -/
theorem initialize_random_counts {N : ℕ} (ratio : ℚ) (shuffled : List ℤ)
    (g : Grid N) (hN : 1 ≤ N) (h0 : 0 ≤ ratio) (h1 : ratio ≤ 1)
    (hperm : shuffled.Perm (spins N ratio))
    (hinit : initialize_lattice N ratio true shuffled = some g) :
    posCount g = num_blue N ratio ∧
    negCount g = N * N - num_blue N ratio := by
  have hN0 : 0 < N := hN
  rw [initialize_lattice, if_pos rfl] at hinit
  have hpos : posCount g = shuffled.count 1 :=
    count_np_reshape hN0 hinit 1
  have hneg : negCount g = shuffled.count (-1) :=
    count_np_reshape hN0 hinit (-1)
  obtain ⟨hb0, hb1⟩ := pyInt_nonneg_bounds N h0 h1
  constructor
  · rw [hpos, hperm.count_eq, spins_count_pos]
  · rw [hneg, hperm.count_eq, spins_count_neg, num_red, num_blue]
    omega

/-- Witness for `initialize_random_counts` at N = 1, ratio = 1, identity
shuffle. -/
theorem initialize_random_counts_witness :
    1 ≤ 1 ∧ (0 : ℚ) ≤ 1 ∧ (1 : ℚ) ≤ 1 ∧
    (spins 1 1).Perm (spins 1 1) ∧
    initialize_lattice 1 1 true (spins 1 1) = some (fun _ _ => 1 : Grid 1) ∧
    (posCount (fun _ _ => 1 : Grid 1) = num_blue 1 1 ∧
     negCount (fun _ _ => 1 : Grid 1) = 1 * 1 - num_blue 1 1) := by
  have hb : num_blue 1 1 = 1 := by
    rw [num_blue, pyInt, if_pos (by norm_num)]
    norm_num
  have hr : num_red 1 1 = 0 := by
    rw [num_red, pyInt, if_pos (by norm_num)]
    norm_num
  have hs : spins 1 1 = [1] := by
    rw [spins, hb, hr]
    rfl
  have hinit : initialize_lattice 1 1 true (spins 1 1)
      = some (fun _ _ => 1 : Grid 1) := by
    rw [hs, initialize_lattice, if_pos rfl, np_reshape,
      dif_pos (show ([1] : List ℤ).length = 1 * 1 from rfl)]
    refine congrArg some (funext fun i => funext fun j => ?_)
    have hi : i = 0 := Subsingleton.elim _ _
    have hj : j = 0 := Subsingleton.elim _ _
    rw [hi, hj]
    rfl
  refine ⟨le_refl 1, by norm_num, le_refl 1, List.Perm.refl _, hinit, ?_⟩
  exact initialize_random_counts 1 (spins 1 1) (fun _ _ => 1) (le_refl 1)
    (by norm_num) (le_refl 1) (List.Perm.refl _) hinit

/-- Modelled from the spec: `round(N²·ratio)`, rounding to the nearest integer
(half rounds up), the count the spec claims for random initialization. -/
def specRound (x : ℚ) : ℤ := ⌊x + 1 / 2⌋

/-- Counterexample to C4 as stated: for N = 2, ratio = 7/10 we have
N²·ratio = 2.8, so the claimed positive count is round(2.8) = 3, but the code
computes `int(2.8)` = 2 and places only 2 positive cells (shown here for the
identity shuffle outcome). -/
theorem initialize_random_counts_round_cex :
    (initialize_lattice 2 (7/10) true (spins 2 (7/10))).map posCount = some 2 ∧
    specRound ((2 * 2 : ℚ) * (7/10)) = 3 := by
  have hfloor : ⌊(14/5 : ℚ)⌋ = 2 := by
    rw [Int.floor_eq_iff] <;> norm_num
  have hcast : ((2 : ℕ) : ℚ) * ((2 : ℕ) : ℚ) * (7/10) = 14/5 := by norm_num
  have hb : num_blue 2 (7/10) = 2 := by
    rw [num_blue, pyInt, if_pos (by norm_num)]
    rw [hcast, hfloor]
    rfl
  have hr : num_red 2 (7/10) = 2 := by
    rw [num_red, pyInt, if_pos (by norm_num)]
    rw [hcast, hfloor]
    rfl
  have hs : spins 2 (7/10) = [1, 1, -1, -1] := by
    rw [spins, hb, hr]
    rfl
  constructor
  · rw [hs]
    decide
  · rw [specRound, show ((2 * 2 : ℚ)) * (7/10) + 1/2 = 33/10 by norm_num]
    rw [Int.floor_eq_iff] <;> norm_num

theorem setCell_pm1 {N : ℕ} (g : Grid N) (p q : Fin N) (v : ℤ)
    (hv : v = 1 ∨ v = -1) (h : ∀ i j, g i j = 1 ∨ g i j = -1) (i j : Fin N) :
    setCell g p q v i j = 1 ∨ setCell g p q v i j = -1 := by
  simp only [setCell]
  split
  · exact hv
  · exact h i j

theorem mtrial_pm1 {N : ℕ} (T : ℝ) (g : Grid N) (t : Trial N)
    (h : ∀ i j, g i j = 1 ∨ g i j = -1) (i j : Fin N) :
    mtrial T g t i j = 1 ∨ mtrial T g t i j = -1 := by
  by_cases hc : (deltaE g t.i t.j : ℝ) < 0 ∨
      t.u < Real.exp (-(deltaE g t.i t.j : ℝ) / T)
  · rw [mtrial, if_pos hc]
    refine setCell_pm1 g t.i t.j _ ?_ h i j
    rcases h t.i t.j with h1 | h1 <;> rw [h1] <;> norm_num
  · rw [mtrial, if_neg hc]
    exact h i j

theorem metropolis_step_pm1 {N : ℕ} (T : ℝ) (g : Grid N) (rand : ℕ → Trial N)
    (h : ∀ i j, g i j = 1 ∨ g i j = -1) (i j : Fin N) :
    metropolis_step T g rand i j = 1 ∨ metropolis_step T g rand i j = -1 := by
  rw [metropolis_step]
  generalize List.range (N ^ 2) = l
  induction l generalizing g with
  | nil => exact h i j
  | cons k ks ih =>
    exact ih (mtrial T g (rand k)) fun i' j' => mtrial_pm1 T g (rand k) h i' j'

/-- C8: every lattice produced by the initializer (either mode; the shuffle
oracle permuting the constructed spin list) has every cell exactly +1 or -1,
and this invariant is preserved by any sequence of Metropolis sweeps (each at
its own temperature with its own trial stream).  The N×N shape is fixed by the
`Grid N` representation itself and cannot change across these operations. -/
theorem initialize_metropolis_cells_pm1 {N : ℕ} (ratio : ℚ) (randomize : Bool)
    (shuffled : List ℤ) (g0 : Grid N)
    (hperm : shuffled.Perm (spins N ratio))
    (hinit : initialize_lattice N ratio randomize shuffled = some g0)
    (sweeps : List (ℝ × (ℕ → Trial N))) :
    ∀ i j, (sweeps.foldl (fun g pr => metropolis_step pr.1 g pr.2) g0) i j = 1 ∨
      (sweeps.foldl (fun g pr => metropolis_step pr.1 g pr.2) g0) i j = -1 := by
  have hx : ∀ x : ℤ, x ∈ spins N ratio → x = 1 ∨ x = -1 := by
    intro x hxm
    rw [spins, List.mem_append] at hxm
    rcases hxm with hx1 | hx1
    · left
      exact List.eq_of_mem_replicate hx1
    · right
      exact List.eq_of_mem_replicate hx1
  have hpm0 : ∀ i j, g0 i j = 1 ∨ g0 i j = -1 := by
    intro i j
    cases randomize with
    | false =>
      rw [initialize_lattice] at hinit
      simp only [Bool.false_eq_true, if_false, Option.some.injEq] at hinit
      rw [← hinit]
      by_cases hj : (j : ℕ) < N / 2
      · right
        simp [hj]
      · left
        simp [hj]
    | true =>
      rw [initialize_lattice, if_pos rfl, np_reshape] at hinit
      by_cases hl : shuffled.length = N * N
      · rw [dif_pos hl] at hinit
        have hg := Option.some.inj hinit
        rw [← hg]
        exact hx _ (hperm.mem_iff.mp (List.get_mem _ _ _))
      · rw [dif_neg hl] at hinit
        exact absurd hinit (by simp)
  have main : ∀ (l : List (ℝ × (ℕ → Trial N))) (g : Grid N),
      (∀ i j, g i j = 1 ∨ g i j = -1) →
      ∀ i j, (l.foldl (fun g2 pr => metropolis_step pr.1 g2 pr.2) g) i j = 1 ∨
        (l.foldl (fun g2 pr => metropolis_step pr.1 g2 pr.2) g) i j = -1 := by
    intro l
    induction l with
    | nil => exact fun g hg i j => hg i j
    | cons pr prs ih =>
      intro g hg i j
      exact ih (metropolis_step pr.1 g pr.2)
        (fun i' j' => metropolis_step_pm1 pr.1 g pr.2 hg i' j') i j
  exact main sweeps g0 hpm0

/-- Witness for `initialize_metropolis_cells_pm1`: deterministic mode, N = 1,
no sweeps. -/
theorem initialize_metropolis_cells_pm1_witness :
    (spins 1 (1/2)).Perm (spins 1 (1/2)) ∧
    initialize_lattice 1 (1/2) false (spins 1 (1/2))
      = some (fun _ j => if (j : ℕ) < 1 / 2 then -1 else 1 : Grid 1) ∧
    (∀ i j, (([] : List (ℝ × (ℕ → Trial 1))).foldl
        (fun g pr => metropolis_step pr.1 g pr.2)
        (fun _ j => if (j : ℕ) < 1 / 2 then -1 else 1 : Grid 1)) i j = 1 ∨
      (([] : List (ℝ × (ℕ → Trial 1))).foldl
        (fun g pr => metropolis_step pr.1 g pr.2)
        (fun _ j => if (j : ℕ) < 1 / 2 then -1 else 1 : Grid 1)) i j = -1) :=
  ⟨List.Perm.refl _, rfl,
   initialize_metropolis_cells_pm1 (1/2) false (spins 1 (1/2))
     (fun _ j => if (j : ℕ) < 1 / 2 then -1 else 1) (List.Perm.refl _) rfl []⟩

theorem mtrial_eq_specTrial {N : ℕ} (T : ℝ) (g : Grid N) (t : Trial N) :
    mtrial T g t = specTrial T g t := by
  simp only [mtrial, specTrial, deltaE, nbSum]
  by_cases h1 : (2 * g t.i t.j * (g (wrapSucc t.i) t.j + g (wrapPred t.i) t.j +
      g t.i (wrapSucc t.j) + g t.i (wrapPred t.j)) : ℤ) < 0
  · rw [if_pos (Or.inl (by exact_mod_cast h1)), if_pos h1, mul_neg_one]
  · have h1' : ¬ ((2 * g t.i t.j * (g (wrapSucc t.i) t.j + g (wrapPred t.i) t.j +
        g t.i (wrapSucc t.j) + g t.i (wrapPred t.j)) : ℤ) : ℝ) < 0 := by
      exact_mod_cast h1
    by_cases h2 : t.u < Real.exp
        (-((2 * g t.i t.j * (g (wrapSucc t.i) t.j + g (wrapPred t.i) t.j +
          g t.i (wrapSucc t.j) + g t.i (wrapPred t.j)) : ℤ) : ℝ) / T)
    · rw [if_pos (Or.inr h2), if_neg h1, if_pos h2, mul_neg_one]
    · have hno : ¬ (((2 * g t.i t.j * (g (wrapSucc t.i) t.j + g (wrapPred t.i) t.j +
          g t.i (wrapSucc t.j) + g t.i (wrapPred t.j)) : ℤ) : ℝ) < 0 ∨
          t.u < Real.exp
            (-((2 * g t.i t.j * (g (wrapSucc t.i) t.j + g (wrapPred t.i) t.j +
              g t.i (wrapSucc t.j) + g t.i (wrapPred t.j)) : ℤ) : ℝ) / T)) := by
        rintro (hc | hc)
        · exact h1' hc
        · exact h2 hc
      rw [if_neg hno, if_neg h1, if_neg h2]

theorem metropolis_step_eq_specSweep {N : ℕ} (T : ℝ) (g : Grid N)
    (rand : ℕ → Trial N) :
    metropolis_step T g rand = specSweep T rand (N ^ 2) g := by
  rw [metropolis_step]
  have main : ∀ (n : ℕ) (g2 : Grid N),
      (List.range n).foldl (fun acc k => mtrial T acc (rand k)) g2
        = specSweep T rand n g2 := by
    intro n
    induction n with
    | zero => intro g2; rfl
    | succ m ih =>
      intro g2
      rw [List.range_succ, List.foldl_append, List.foldl_cons, List.foldl_nil,
        ih, mtrial_eq_specTrial]
      rfl
  exact main (N ^ 2) g

/-- C1: for N ≥ 1 and T > 0, one call to `metropolis_step` is exactly the
N²-fold iteration of the spec's single-trial rule — trial k reads the k-th
site pair and uniform draw from the stream (sites range over all N² positions,
with replacement), accepts unconditionally when delta_E < 0, otherwise accepts
exactly when the fresh uniform draw is strictly below exp(-delta_E/T), and on
acceptance negates that one cell; moreover a trial never touches any cell
other than the one it picked. -/
theorem metropolis_step_refines_spec {N : ℕ} (T : ℝ) (g : Grid N)
    (rand : ℕ → Trial N) (hN : 1 ≤ N) (hT : 0 < T) :
    metropolis_step T g rand = specSweep T rand (N ^ 2) g ∧
    (∀ (g2 : Grid N) (t : Trial N) (i j : Fin N), ¬(i = t.i ∧ j = t.j) →
      mtrial T g2 t i j = g2 i j) := by
  refine ⟨metropolis_step_eq_specSweep T g rand, ?_⟩
  intro g2 t i j hij
  by_cases hc : (deltaE g2 t.i t.j : ℝ) < 0 ∨
      t.u < Real.exp (-(deltaE g2 t.i t.j : ℝ) / T)
  · rw [mtrial, if_pos hc]
    simp only [setCell, if_neg hij]
  · rw [mtrial, if_neg hc]

/-- Witness for `metropolis_step_refines_spec` at N = 1, T = 1 on the all-(+1)
lattice with a constant trial stream. -/
theorem metropolis_step_refines_spec_witness :
    1 ≤ 1 ∧ (0 : ℝ) < 1 ∧
    (metropolis_step 1 (fun _ _ => 1 : Grid 1) (fun _ => ⟨0, 0, 1⟩)
        = specSweep 1 (fun _ => ⟨0, 0, 1⟩) (1 ^ 2) (fun _ _ => 1) ∧
      (∀ (g2 : Grid 1) (t : Trial 1) (i j : Fin 1), ¬(i = t.i ∧ j = t.j) →
        mtrial 1 g2 t i j = g2 i j)) :=
  ⟨le_refl 1, by norm_num,
   metropolis_step_refines_spec 1 (fun _ _ => 1) (fun _ => ⟨0, 0, 1⟩)
     (le_refl 1) (by norm_num)⟩

theorem mtrial_flips {N : ℕ} (T : ℝ) (g : Grid N) (t : Trial N)
    (h : (deltaE g t.i t.j : ℝ) < 0 ∨
      t.u < Real.exp (-(deltaE g t.i t.j : ℝ) / T)) :
    mtrial T g t t.i t.j = g t.i t.j * (-1) := by
  rw [mtrial, if_pos h]
  simp [setCell]

/-- Evidence for C5 (code bug): `metropolis_step` contains no temperature-zero
guard — the acceptance test evaluates `exp(-delta_E / temperature)`
unconditionally.  On the all-(+1) 1×1 lattice delta_E = 8 ≥ 0, yet at T = 0
the trial with uniform draw 1/2 flips the spin in this embedding, because the
unguarded formula under total real division gives exp(-8/0) = exp 0 = 1 > 1/2.
(Under IEEE arithmetic the same unguarded expression instead emits a
division-by-zero warning and produces inf/nan; either way no guard exists.) -/
theorem metropolis_step_T0_unguarded :
    deltaE (fun _ _ => 1 : Grid 1) 0 0 = 8 ∧
    metropolis_step 0 (fun _ _ => 1 : Grid 1) (fun _ => ⟨0, 0, 1/2⟩) 0 0 = -1 := by
  have hd : deltaE (fun _ _ => 1 : Grid 1) 0 0 = 8 := by
    rw [deltaE, nbSum]
    norm_num
  refine ⟨hd, ?_⟩
  have hcond : ((deltaE (fun _ _ => 1 : Grid 1) 0 0 : ℝ) < 0 ∨
      (1/2 : ℝ) < Real.exp (-(deltaE (fun _ _ => 1 : Grid 1) 0 0 : ℝ) / 0)) := by
    right
    rw [hd]
    norm_num [div_zero, Real.exp_zero]
  have hrange : List.range (1 ^ 2) = [0] := rfl
  rw [metropolis_step, hrange, List.foldl_cons, List.foldl_nil]
  have h2 := mtrial_flips 0 (fun _ _ => 1 : Grid 1) ⟨0, 0, 1/2⟩ hcond
  exact h2.trans (by norm_num)

/-- Evidence for C6 (code bug): `metropolis_step` performs no entry validation —
called with the invalid temperature -1 it proceeds normally and even accepts an
energy-raising flip (delta_E = 8 > 0 but exp(-8/(-1)) = e⁸ > 1 > 1/2), rather
than rejecting the configuration at entry. -/
theorem metropolis_step_negative_T_runs :
    metropolis_step (-1) (fun _ _ => 1 : Grid 1) (fun _ => ⟨0, 0, 1/2⟩) 0 0
      = -1 := by
  have hd : deltaE (fun _ _ => 1 : Grid 1) 0 0 = 8 := by
    rw [deltaE, nbSum]
    norm_num
  have hcond : ((deltaE (fun _ _ => 1 : Grid 1) 0 0 : ℝ) < 0 ∨
      (1/2 : ℝ) < Real.exp (-(deltaE (fun _ _ => 1 : Grid 1) 0 0 : ℝ) / (-1))) := by
    right
    rw [hd]
    rw [show (-((8 : ℤ) : ℝ) / (-1)) = 8 by norm_num]
    linarith [Real.add_one_le_exp (8 : ℝ)]
  have hrange : List.range (1 ^ 2) = [0] := rfl
  rw [metropolis_step, hrange, List.foldl_cons, List.foldl_nil]
  have h2 := mtrial_flips (-1) (fun _ _ => 1 : Grid 1) ⟨0, 0, 1/2⟩ hcond
  exact h2.trans (by norm_num)

end Ising
